import Mathlib

/-!
Verification of the mongoposter polling monitor (`src/mongodb_monitor.py`).

The development shallowly embeds the pure computational content of
`MongoDBPollingMonitor` and `EnhancedPollingMonitor`:

* Python string operations used by `preserve_code_formatting`
  (`str.splitlines`, `str.rstrip`, `'\n'.join`) over `List Char`;
* loosely-typed Mongo documents as ordered association lists of
  field names to `Value`s (mirroring Python dict insertion order);
* `extract_text_content` with its alias scan and recursive fallback;
* the query-bound selection loop of `get_new_documents`;
* the processed-ids dedup filter and the per-cycle poll pipeline
  (descending `_id` sort, limit 100, seen-set filter, reversed
  processing order);
* the enhanced monitor's statistics bookkeeping, with the delivery
  sink abstracted as an oracle `String → Bool` and clipboard writes
  recorded in a log.

Side effects (logging, the network, real clocks, threads) are outside
the embedding; times and ObjectId bounds are represented by integers,
ordered the way ObjectIds generated from increasing datetimes are.
-/

namespace MongoPoster

/-! ## Python string primitives -/

/-- Characters Python's `str.rstrip()` removes: the Unicode whitespace
set used by `str.strip` and friends. -/
def pyIsSpace (c : Char) : Bool :=
  [' ', Char.ofNat 9, Char.ofNat 10, Char.ofNat 13, Char.ofNat 11,
   Char.ofNat 12, Char.ofNat 28, Char.ofNat 29, Char.ofNat 30,
   Char.ofNat 31, Char.ofNat 133, Char.ofNat 160, Char.ofNat 5760,
   Char.ofNat 8192, Char.ofNat 8193, Char.ofNat 8194, Char.ofNat 8195,
   Char.ofNat 8196, Char.ofNat 8197, Char.ofNat 8198, Char.ofNat 8199,
   Char.ofNat 8200, Char.ofNat 8201, Char.ofNat 8202, Char.ofNat 8232,
   Char.ofNat 8233, Char.ofNat 8239, Char.ofNat 8287, Char.ofNat 12288].contains c

/-- Line boundary characters recognised by Python's `str.splitlines()`
(besides the two-character boundary `\r\n`). -/
def isLineBreak (c : Char) : Bool :=
  [Char.ofNat 10, Char.ofNat 13, Char.ofNat 11, Char.ofNat 12,
   Char.ofNat 28, Char.ofNat 29, Char.ofNat 30, Char.ofNat 133,
   Char.ofNat 8232, Char.ofNat 8233].contains c

/-- `line.rstrip()`: drop trailing characters satisfying `pyIsSpace`. -/
def pyRstrip (l : List Char) : List Char :=
  (l.reverse.dropWhile pyIsSpace).reverse

/-- Accumulator worker for `str.splitlines()`: `acc` holds the current
line reversed; a final segment is emitted only if non-empty, and `\r\n`
counts as a single boundary. -/
def splitlinesAux : List Char → List Char → List (List Char)
  | [], acc => if acc.isEmpty then [] else [acc.reverse]
  | c :: rest, acc =>
    if c = Char.ofNat 13 then
      match rest with
      | c2 :: rest2 =>
        if c2 = Char.ofNat 10 then acc.reverse :: splitlinesAux rest2 []
        else acc.reverse :: splitlinesAux (c2 :: rest2) []
      | [] => [acc.reverse]
    else if isLineBreak c then acc.reverse :: splitlinesAux rest []
    else splitlinesAux rest (c :: acc)

/-- `text.splitlines()`. -/
def pySplitlines (l : List Char) : List (List Char) :=
  splitlinesAux l []

/-- `MongoDBPollingMonitor.preserve_code_formatting` (lines 53-74):
empty/falsy text yields `""`; otherwise split into lines, `rstrip`
each line (leading whitespace untouched), and rejoin with `'\n'`. -/
def preserve_code_formatting (text : String) : String :=
  if text = "" then ""
  else
    let lines := pySplitlines text.toList
    let formatted_lines := lines.map pyRstrip
    String.mk (List.intercalate [Char.ofNat 10] formatted_lines)

/-! ## Documents and values -/

/-- A loosely-typed Mongo/BSON value as seen by the Python code:
strings, integers, booleans, `None`, and nested documents. A document
is an insertion-ordered association list, mirroring a Python dict. -/
inductive Value : Type where
  | vstr : String → Value
  | vint : Int → Value
  | vbool : Bool → Value
  | vnone : Value
  | vdoc : List (String × Value) → Value

/-- A document: ordered field/value bindings with (in real dicts)
distinct keys. -/
abbrev Doc := List (String × Value)

/-- Python truthiness of a value, as tested by `if document[field]:`. -/
def truthy : Value → Bool
  | .vstr s => s != ""
  | .vint n => n != 0
  | .vbool b => b
  | .vnone => false
  | .vdoc d => !d.isEmpty

/-- Python `s.startswith(p)`, over the character lists. -/
def pyStartsWith (s p : String) : Bool :=
  p.toList.isPrefixOf s.toList

/-- Dict lookup `document[field]` / membership `field in document`. -/
def lookupField : Doc → String → Option Value
  | [], _ => none
  | (k, v) :: rest, f => if k = f then some v else lookupField rest f

/-- A single-quote character, used by Python `repr` of strings. -/
def squote : String := String.mk [Char.ofNat 39]

mutual

/-- Python `repr(value)` (escaping of special characters inside
strings is not modelled; no claim exercises it). -/
def pyRepr : Value → String
  | .vstr s => squote ++ s ++ squote
  | .vint n => toString n
  | .vbool b => if b then "True" else "False"
  | .vnone => "None"
  | .vdoc d => "\x7b" ++ pyReprFields d ++ "\x7d"

/-- `repr` of a dict body: comma-separated `'key': value` items. -/
def pyReprFields : List (String × Value) → String
  | [] => ""
  | [(k, v)] => squote ++ k ++ squote ++ ": " ++ pyRepr v
  | (k, v) :: rest =>
    squote ++ k ++ squote ++ ": " ++ pyRepr v ++ ", " ++ pyReprFields rest

end

/-- Python `str(value)`: identity on strings, `repr`-like otherwise. -/
def pyStr : Value → String
  | .vstr s => s
  | v => pyRepr v

/-! ## Content extraction (`extract_text_content`, lines 76-106) -/

/-- The fixed alias list of payload-like field names (line 87). -/
def text_fields : List String :=
  ["text", "content", "code", "message", "body", "data", "value", "snippet"]

/-- The alias loop (lines 89-92): first field of the alias list that is
present in the document with a truthy value. -/
def findAliasVal : List String → Doc → Option Value
  | [], _ => none
  | f :: fs, d =>
    match lookupField d f with
    | some v => if truthy v then some v else findAliasVal fs d
    | none => findAliasVal fs d

mutual

/-- `extract_text_content` on a value known to be a dict (the method
is only ever applied to dicts in the source): try the alias fields
first and return the first truthy one stringified and normalized
(lines 89-92); otherwise fall through to the field scan. A non-dict
argument (unreachable in the source) yields `none`. -/
def extractValue : Value → Option String
  | .vdoc d =>
    (match findAliasVal text_fields d with
     | some v => some (preserve_code_formatting (pyStr v))
     | none => scanFields d)
  | _ => none
termination_by structural v => v

/-- The fallback loop (lines 95-104): walk the fields in natural
order; skip keys starting with an underscore; return a string value
longer than 10 characters, normalized; recurse into a dict value with
`extract_text_content` and return its result if truthy; otherwise
continue with the next field. -/
def scanFields : List (String × Value) → Option String
  | [] => none
  | (key, value) :: rest =>
    if pyStartsWith key "_" then scanFields rest
    else
      match value with
      | .vstr s =>
        if s.length > 10 then some (preserve_code_formatting s)
        else scanFields rest
      | .vdoc _ =>
        (match extractValue value with
         | some t => if t = "" then scanFields rest else some t
         | none => scanFields rest)
      | _ => scanFields rest
termination_by structural l => l

end

/-- `MongoDBPollingMonitor.extract_text_content` (lines 76-106). -/
def extract_text_content (document : Doc) : Option String :=
  extractValue (.vdoc document)

/-! ## Query-bound selection (`get_new_documents`, lines 133-152)

Times and ObjectId bounds are both represented by `Int`:
`ObjectId.from_datetime t` is the least identifier with timestamp `t`,
so `_id > ObjectId.from_datetime t` is modelled as `id > t`. -/

/-- The candidate bound fields tried in order (line 139). -/
def timestamp_fields : List String :=
  ["timestamp", "created_at", "createdAt", "date_created", "_id"]

/-- The query the base monitor issues: empty, an `_id`-ObjectId lower
bound, or a `{field: {$gt: last_check_time}}` bound on a named field. -/
inductive MQuery : Type where
  | empty : MQuery
  | idGt : Int → MQuery
  | fieldGt : String → Int → MQuery
deriving DecidableEq

/-- The bound-selection loop (lines 141-151): for each candidate field
in order, `_id` is taken unconditionally (ObjectId bound), any other
field is taken if some document in the collection has it (`hasField`,
modelling the `find_one({field: {$exists: True}})` probe). -/
def buildQueryLoop (t : Int) (hasField : String → Bool) : List String → MQuery
  | [] => .empty
  | f :: fs =>
    if f = "_id" then .idGt t
    else if hasField f then .fieldGt f t
    else buildQueryLoop t hasField fs

/-- Query construction of `MongoDBPollingMonitor.get_new_documents`
(lines 134-152): no bound at all before the first check time. -/
def buildQuery (lastCheck : Option Int) (hasField : String → Bool) : MQuery :=
  match lastCheck with
  | none => .empty
  | some t => buildQueryLoop t hasField timestamp_fields

/-! ## The processed-ids dedup filter (lines 158-166 and 286-294)

Both `get_new_documents` implementations run the identical loop: keep
a fetched document only if its id is not in `processed_ids`, adding
the id to the set as the batch is scanned. The Python set is modelled
by a list used only through membership and insertion. -/

/-- The filter loop over a fetched batch of ids: returns the admitted
ids in fetch order and the grown seen-set. -/
def filterNew : List Int → List Int → List Int × List Int
  | [], seen => ([], seen)
  | d :: ds, seen =>
    if d ∈ seen then filterNew ds seen
    else
      let r := filterNew ds (d :: seen)
      (d :: r.1, r.2)

/-- The filter applied over successive poll cycles: the list of
admitted batches and the final seen-set. -/
def runFilter : List (List Int) → List Int → List (List Int) × List Int
  | [], seen => ([], seen)
  | b :: bs, seen =>
    ((filterNew b seen).1 :: (runFilter bs (filterNew b seen).2).1,
     (runFilter bs (filterNew b seen).2).2)

/-! ## The base poll cycle (`poll_for_changes`, lines 203-219)

A record is represented by its `_id` and the timestamp-like fields it
carries (the payload fields play no role in fetching). Each cycle
first runs the bound-selection loop of `get_new_documents` — so the
query is a timestamp-field bound whenever the collection has one of
the four probed field names, and the `_id` ObjectId bound only
otherwise — then fetches the matching records sorted descending by
`_id` (`.sort('_id', -1)`, line 155) capped at 100, filters them
through `processed_ids`, processes the survivors in reversed
(oldest-first) order, and advances `last_check_time`. -/

/-- A stored record as the base poller sees it: the `_id` and the
timestamp-like fields (name/value) the record carries. -/
structure BRec where
  rid : Int
  tsFields : List (String × Int)

/-- The probe `collection.find_one({field: {'$exists': True}})` of
line 149: does any record in the collection carry the field? -/
def hasFieldIn (store : List BRec) (f : String) : Bool :=
  store.any fun r => (r.tsFields.lookup f).isSome

/-- Whether a record matches the chosen query: `_id > bound` for the
ObjectId bound (line 145), `field > bound` for a timestamp-field
bound (line 151; records lacking the field do not match). -/
def matchesQuery (q : MQuery) (r : BRec) : Bool :=
  match q with
  | .empty => true
  | .idGt t => t < r.rid
  | .fieldGt f t =>
    match r.tsFields.lookup f with
    | some v => t < v
    | none => false

/-- `.sort('_id', -1)`: descending sort by `_id`, here as ascending
insertion sort followed by a reversal (identifiers are unique). -/
def sortDescB (l : List BRec) : List BRec :=
  (List.insertionSort (fun a b => a.rid ≤ b.rid) l).reverse

instance : IsTotal BRec (fun a b => a.rid ≤ b.rid) :=
  ⟨fun a b => Int.le_total a.rid b.rid⟩

instance : IsTrans BRec (fun a b => a.rid ≤ b.rid) :=
  ⟨fun _ _ _ hab hbc => le_trans hab hbc⟩

/-- The dedup loop of lines 158-166 over fetched records. -/
def admitBRec : List BRec → List Int → List BRec × List Int
  | [], seen => ([], seen)
  | r :: rs, seen =>
    if r.rid ∈ seen then admitBRec rs seen
    else
      (r :: (admitBRec rs (r.rid :: seen)).1, (admitBRec rs (r.rid :: seen)).2)

/-- Base-monitor state: the log of ids handed to `process_document`
in order, the processed-ids set, and `last_check_time`. -/
structure PState where
  processedLog : List Int
  seen : List Int
  lastCheck : Int

/-- One cycle of `poll_for_changes` against a store, with the wall
clock reading `now` at the end of the cycle. -/
def pollCycleP (store : List BRec) (now : Int) (st : PState) : PState :=
  { processedLog := st.processedLog ++
      ((admitBRec ((sortDescB (store.filter
          (matchesQuery (buildQuery (some st.lastCheck) (hasFieldIn store))))).take 100)
        st.seen).1.reverse.map BRec.rid)
    seen := (admitBRec ((sortDescB (store.filter
          (matchesQuery (buildQuery (some st.lastCheck) (hasFieldIn store))))).take 100)
        st.seen).2
    lastCheck := now }

/-- Successive poll cycles; each list element is the store contents
during that cycle paired with the cycle-end clock reading. -/
def runPollP : List (List BRec × Int) → PState → PState
  | [], st => st
  | c :: cs, st => runPollP cs (pollCycleP c.1 c.2 st)

/-! ## The enhanced monitor (`EnhancedPollingMonitor`, lines 262-321)

Statistics, the delivery sink (`copy_to_clipboard`) as an oracle
`String → Bool`, and clipboard attempts recorded in a log. Static
`filters` are treated as already applied by the store to the documents
it hands back. -/

/-- The `stats` dict initialised in `__init__` (lines 267-271). -/
structure Stats where
  documents_processed : Nat
  texts_copied : Nat
  start_time : Option Int

/-- Enhanced-monitor state. -/
structure EState where
  seen : List Int
  lastCheck : Option Int
  stats : Stats
  deliveries : List (String × Bool)
  is_monitoring : Bool

/-- State after `EnhancedPollingMonitor.__init__` (lines 263-271). -/
def initE : EState :=
  { seen := []
    lastCheck := none
    stats := { documents_processed := 0, texts_copied := 0, start_time := none }
    deliveries := []
    is_monitoring := false }

/-- `MongoDBPollingMonitor.process_document` (lines 172-201): extract;
if the text is truthy, attempt the clipboard copy — the outcome is
logged but affects nothing else. -/
def process_document_base (deliver : String → Bool) (document : Doc)
    (st : EState) : EState :=
  match extract_text_content document with
  | some t =>
    if t = "" then st
    else { st with deliveries := st.deliveries ++ [(t, deliver t)] }
  | none => st

/-- `EnhancedPollingMonitor.process_document` (lines 300-308): run the
base processing, bump `documents_processed`, and bump `texts_copied`
whenever extraction finds truthy text — the clipboard outcome is not
consulted. -/
def process_document_enh (deliver : String → Bool) (document : Doc)
    (st : EState) : EState :=
  let st1 := process_document_base deliver document st
  let st2 := { st1 with stats :=
    { st1.stats with documents_processed := st1.stats.documents_processed + 1 } }
  match extract_text_content document with
  | some t =>
    if t = "" then st2
    else { st2 with stats :=
      { st2.stats with texts_copied := st2.stats.texts_copied + 1 } }
  | none => st2

/-- Descending `_id` sort of fetched `(id, document)` pairs. -/
def sortDescDocs (l : List (Int × Doc)) : List (Int × Doc) :=
  (List.insertionSort (fun a b => a.1 ≤ b.1) l).reverse

/-- The fetch of `EnhancedPollingMonitor.get_new_documents` (lines
275-284): `_id > ObjectId.from_datetime(last_check_time)` when a check
time exists, sorted descending, capped at 100. -/
def fetchEnhanced (docs : List (Int × Doc)) (lastCheck : Option Int) :
    List (Int × Doc) :=
  let matching :=
    match lastCheck with
    | some t => docs.filter (fun p => t < p.1)
    | none => docs
  (sortDescDocs matching).take 100

/-- The dedup loop of `EnhancedPollingMonitor.get_new_documents`
(lines 287-294), identical to the base one but carrying documents. -/
def admitDocs : List (Int × Doc) → List Int → List (Int × Doc) × List Int
  | [], seen => ([], seen)
  | p :: ps, seen =>
    if p.1 ∈ seen then admitDocs ps seen
    else
      let r := admitDocs ps (p.1 :: seen)
      (p :: r.1, r.2)

/-- One enhanced poll cycle: fetch, admit (growing the seen-set before
any processing), process the admitted documents oldest-first, then
advance `last_check_time`. Returns the ids processed this cycle in
processing order, and the new state. -/
def pollCycleE (deliver : String → Bool) (docs : List (Int × Doc))
    (now : Int) (st : EState) : List Int × EState :=
  let fetched := fetchEnhanced docs st.lastCheck
  let a := admitDocs fetched st.seen
  let admitted := a.1.reverse
  let stProc :=
    admitted.foldl (fun s p => process_document_enh deliver p.2 s)
      { st with seen := a.2 }
  (admitted.map Prod.fst, { stProc with lastCheck := some now })

/-- Successive enhanced poll cycles. -/
def runPollE (deliver : String → Bool) :
    List (List (Int × Doc) × Int) → EState → List Int × EState
  | [], st => ([], st)
  | c :: cs, st =>
    let r1 := pollCycleE deliver c.1 c.2 st
    let r2 := runPollE deliver cs r1.2
    (r1.1 ++ r2.1, r2.2)

/-- `EnhancedPollingMonitor.start_monitoring` (lines 318-321) together
with the pre-loop part of the base `start_monitoring` (lines 221-230):
set `stats['start_time']`, then — if the connection succeeds — raise
the running flag and set `last_check_time` to five seconds ago. -/
def start_monitoring_enh (connectOk : Bool) (now : Int) (st : EState) :
    EState :=
  let st1 := { st with stats := { st.stats with start_time := some now } }
  if connectOk then { st1 with is_monitoring := true, lastCheck := some (now - 5) }
  else st1

/-- `stop_monitoring` (lines 250-259): clear the running flag. -/
def stop_monitoring (st : EState) : EState :=
  { st with is_monitoring := false }

/-! ## Spec-side model for the fallback-scan claim -/

/-- Modelled from the spec: step 2 of the extraction algorithm read as
a phase of its own — "scan remaining fields in their natural order,
skipping any field whose name begins with the store's
reserved-internal prefix. Return the first string-typed value longer
than ... >10 characters", normalized. Used to compare the source's
interleaved scan against the spec's phrasing. -/
def firstLongString : Doc → Option String
  | [] => none
  | (key, value) :: rest =>
    if pyStartsWith key "_" then firstLongString rest
    else
      match value with
      | .vstr s =>
        if s.length > 10 then some (preserve_code_formatting s)
        else firstLongString rest
      | _ => firstLongString rest

/-! ## Lemmas about the dedup filter -/

theorem filterNew_cons_seen (d : Int) (ds seen : List Int) (hd : d ∈ seen) :
    filterNew (d :: ds) seen = filterNew ds seen := by
  simp [filterNew, hd]

theorem filterNew_cons_new (d : Int) (ds seen : List Int) (hd : d ∉ seen) :
    filterNew (d :: ds) seen =
      (d :: (filterNew ds (d :: seen)).1, (filterNew ds (d :: seen)).2) := by
  simp [filterNew, hd]

/-- The seen-set after a batch holds exactly the batch and the old set. -/
theorem filterNew_seen_mem : ∀ (b seen : List Int) (i : Int),
    i ∈ (filterNew b seen).2 ↔ i ∈ b ∨ i ∈ seen := by
  intro b
  induction b with
  | nil => intro seen i; simp [filterNew]
  | cons d ds ih =>
    intro seen i
    by_cases hd : d ∈ seen
    · rw [filterNew_cons_seen d ds seen hd, ih]
      by_cases hid : i = d
      · subst hid; simp [hd]
      · simp [List.mem_cons, hid]
    · rw [filterNew_cons_new d ds seen hd]
      simp only [ih, List.mem_cons]
      tauto

/-- A batch element is admitted exactly when it was not already seen. -/
theorem filterNew_adm_mem : ∀ (b seen : List Int) (i : Int),
    i ∈ (filterNew b seen).1 ↔ i ∈ b ∧ i ∉ seen := by
  intro b
  induction b with
  | nil => intro seen i; simp [filterNew]
  | cons d ds ih =>
    intro seen i
    by_cases hd : d ∈ seen
    · rw [filterNew_cons_seen d ds seen hd, ih]
      by_cases hid : i = d
      · subst hid; simp [hd]
      · simp [List.mem_cons, hid]
    · rw [filterNew_cons_new d ds seen hd]
      simp only [List.mem_cons, ih]
      by_cases hid : i = d
      · subst hid; simp [hd]
      · simp [hid]

/-- No batch admits the same id twice: duplicates inside one fetched
batch are filtered because the id enters the set as the batch is
scanned. -/
theorem filterNew_adm_nodup : ∀ (b seen : List Int), (filterNew b seen).1.Nodup := by
  intro b
  induction b with
  | nil => intro seen; simp [filterNew]
  | cons d ds ih =>
    intro seen
    by_cases hd : d ∈ seen
    · rw [filterNew_cons_seen d ds seen hd]; exact ih seen
    · rw [filterNew_cons_new d ds seen hd]
      refine List.nodup_cons.2 ⟨fun hmem => ?_, ih (d :: seen)⟩
      have := (filterNew_adm_mem ds (d :: seen) d).1 hmem
      exact this.2 (List.mem_cons_self d seen)

/-- The admitted sublist preserves the fetched order. -/
theorem filterNew_adm_sublist : ∀ (b seen : List Int),
    List.Sublist (filterNew b seen).1 b := by
  intro b
  induction b with
  | nil => intro seen; simp [filterNew]
  | cons d ds ih =>
    intro seen
    by_cases hd : d ∈ seen
    · rw [filterNew_cons_seen d ds seen hd]; exact (ih seen).cons d
    · rw [filterNew_cons_new d ds seen hd]; exact (ih (d :: seen)).cons₂ d

/-- Final seen-set of a multi-cycle run of the filter. -/
theorem runFilter_seen_mem : ∀ (bs : List (List Int)) (seen : List Int) (i : Int),
    i ∈ (runFilter bs seen).2 ↔ (∃ b ∈ bs, i ∈ b) ∨ i ∈ seen := by
  intro bs
  induction bs with
  | nil => intro seen i; simp [runFilter]
  | cons b rest ih =>
    intro seen i
    simp only [runFilter, ih, filterNew_seen_mem, List.mem_cons]
    constructor
    · rintro (⟨b2, hb2, hi⟩ | h | h)
      · exact Or.inl ⟨b2, Or.inr hb2, hi⟩
      · exact Or.inl ⟨b, Or.inl rfl, h⟩
      · exact Or.inr h
    · rintro (⟨b2, rfl | hb2, hi⟩ | h)
      · exact Or.inr (Or.inl hi)
      · exact Or.inl ⟨b2, hb2, hi⟩
      · exact Or.inr (Or.inr h)

/-- An id appears in the admitted batches of a run exactly when some
cycle fetched it and it was not in the initial seen-set. -/
theorem runFilter_flat_mem : ∀ (bs : List (List Int)) (seen : List Int) (i : Int),
    i ∈ (runFilter bs seen).1.flatten ↔ (∃ b ∈ bs, i ∈ b) ∧ i ∉ seen := by
  intro bs
  induction bs with
  | nil => intro seen i; simp [runFilter]
  | cons b rest ih =>
    intro seen i
    simp only [runFilter, List.flatten_cons, List.mem_append, filterNew_adm_mem,
      ih, filterNew_seen_mem]
    constructor
    · rintro (⟨h, hn⟩ | ⟨⟨b2, hb2, hi⟩, hn⟩)
      · exact ⟨⟨b, List.mem_cons_self b rest, h⟩, hn⟩
      · exact ⟨⟨b2, List.mem_cons_of_mem b hb2, hi⟩, fun hs => hn (Or.inr hs)⟩
    · rintro ⟨⟨b2, hb2, hi⟩, hn⟩
      rcases List.mem_cons.1 hb2 with rfl | hb2r
      · exact Or.inl ⟨hi, hn⟩
      · by_cases hb : i ∈ b
        · exact Or.inl ⟨hb, hn⟩
        · exact Or.inr ⟨⟨b2, hb2r, hi⟩, fun hs => hs.elim hb hn⟩

/-- Across any number of cycles no id is admitted twice. -/
theorem runFilter_flat_nodup : ∀ (bs : List (List Int)) (seen : List Int),
    (runFilter bs seen).1.flatten.Nodup := by
  intro bs
  induction bs with
  | nil => intro seen; simp [runFilter]
  | cons b rest ih =>
    intro seen
    simp only [runFilter, List.flatten_cons]
    rw [List.nodup_append]
    refine ⟨filterNew_adm_nodup b seen, ih _, ?_⟩
    intro i hi hrest
    have h1 := (filterNew_adm_mem b seen i).1 hi
    have h2 := (runFilter_flat_mem rest (filterNew b seen).2 i).1 hrest
    exact h2.2 ((filterNew_seen_mem b seen i).2 (Or.inl h1.1))

/-- C1: within one process lifetime no identifier is admitted to
processing twice — the concatenation of the admitted batches across
any sequence of poll cycles has no duplicate, and an identifier is
admitted exactly when some cycle fetched it and it was not already in
the seen-set at process start. Models the filter loop shared by
`MongoDBPollingMonitor.get_new_documents` (lines 158-166) and
`EnhancedPollingMonitor.get_new_documents` (lines 286-294). -/
theorem claim1_admission_at_most_once (batches : List (List Int)) (seen : List Int) :
    (runFilter batches seen).1.flatten.Nodup ∧
    (∀ i : Int, i ∈ (runFilter batches seen).1.flatten ↔
      ((∃ b ∈ batches, i ∈ b) ∧ i ∉ seen)) :=
  ⟨runFilter_flat_nodup batches seen, fun i => runFilter_flat_mem batches seen i⟩

/-- C2 counterexample: with a last-check time available (so the
identifier-based ObjectId bound is constructible) and a collection in
which some document has a `timestamp` field, the base monitor's query
bounds `timestamp`, not `_id` — the identifier bound is not preferred. -/
theorem claim2_counterexample :
    buildQuery (some 0) (fun f => f == "timestamp") = .fieldGt "timestamp" 0 ∧
    MQuery.fieldGt "timestamp" 0 ≠ MQuery.idGt 0 := by
  constructor
  · decide
  · decide

/-- C2 (amended): the poller scans the timestamp-like field names
`timestamp`, `created_at`, `createdAt`, `date_created` in that order
and bounds the first one that exists in the collection; the
store-native `_id` ObjectId bound is used only as a fallback when none
of those fields exists. With no last-check time the query is empty. -/
theorem claim2_amended_bound_selection (t : Int) (hasField : String → Bool) :
    (buildQuery (some t) hasField =
      match ["timestamp", "created_at", "createdAt", "date_created"].find? hasField with
      | some f => .fieldGt f t
      | none => .idGt t) ∧
    buildQuery none hasField = .empty := by
  refine ⟨?_, rfl⟩
  simp only [buildQuery, timestamp_fields]
  cases h1 : hasField "timestamp" <;> cases h2 : hasField "created_at" <;>
    cases h3 : hasField "createdAt" <;> cases h4 : hasField "date_created" <;>
      simp [buildQueryLoop, List.find?, h1, h2, h3, h4]

/-- C4: evaluation at the failing input. With a sink that always
fails, a cycle fetching documents 1 (`{code: "print(1)"}`) and 2
(`{text: "second"}`) records both delivery attempts as failed, yet
`texts_copied` ends at 2: the counter is incremented although delivery
returned false (divergence from the claim and from the source's own
"Update stats if text was copied" comment). Processing of the second
record did continue after the first record's failed delivery, as the
claim's second half states. -/
theorem claim4_failed_delivery_still_counted :
    (let r := pollCycleE (fun _ => false)
        [(1, [("code", .vstr "print(1)")]), (2, [("text", .vstr "second")])]
        10 (start_monitoring_enh true 0 initE)
     (r.1, r.2.deliveries, r.2.stats.texts_copied, r.2.stats.documents_processed)) =
      ([1, 2], [("print(1)", false), ("second", false)], 2, 2) := by
  decide

/-- C5 counterexample: construct the monitor, start it, process one
document, stop, and start again — after the second start the
records-processed counter is still 1, not 0: the counters are not
reset by `start_monitoring`. -/
theorem claim5_counterexample :
    (start_monitoring_enh true 100
      (stop_monitoring
        (process_document_enh (fun _ => true) [("code", .vstr "x")]
          (start_monitoring_enh true 0 initE)))).stats.documents_processed = 1 ∧
    (1 : Nat) ≠ 0 := by
  constructor
  · decide
  · decide

/-- C5 (amended): every call to start sets the start time to the
moment of that start, but leaves the records-processed and
payloads-delivered counters unchanged: the counters are zero only at
construction, so a second start after a stop retains the previous
run's counts in `get_stats`. -/
theorem claim5_amended_start_semantics (connectOk : Bool) (now : Int) (st : EState) :
    (start_monitoring_enh connectOk now st).stats.start_time = some now ∧
    (start_monitoring_enh connectOk now st).stats.documents_processed =
      st.stats.documents_processed ∧
    (start_monitoring_enh connectOk now st).stats.texts_copied =
      st.stats.texts_copied ∧
    initE.stats.documents_processed = 0 ∧ initE.stats.texts_copied = 0 := by
  cases connectOk <;> simp [start_monitoring_enh, initE]

/-! ## Normalization and extraction claims -/

/-- C6: formatting normalization splits the input on line boundaries,
strips only trailing whitespace from each line — the stripped text is
always a prefix of the line followed by whitespace only, so leading
whitespace survives — and rejoins with a single newline; the empty
string yields the empty string, and the spec's round-trip example
holds with no trailing blank line added. -/
theorem claim6_normalization (s : String) :
    preserve_code_formatting "" = "" ∧
    preserve_code_formatting "  a\n\tb  \nc\n" = "  a\n\tb\nc" ∧
    preserve_code_formatting s =
      String.mk (List.intercalate [Char.ofNat 10]
        ((pySplitlines s.toList).map pyRstrip)) ∧
    (∀ l : List Char, ∃ w : List Char,
      l = pyRstrip l ++ w ∧ ∀ c ∈ w, pyIsSpace c = true) := by
  refine ⟨by decide, by decide, ?_, ?_⟩
  · by_cases h : s = ""
    · subst h; decide
    · simp [preserve_code_formatting, h]
  · intro l
    refine ⟨(l.reverse.takeWhile pyIsSpace).reverse, ?_, ?_⟩
    · calc l = l.reverse.reverse := (List.reverse_reverse l).symm
        _ = (l.reverse.takeWhile pyIsSpace ++ l.reverse.dropWhile pyIsSpace).reverse := by
              rw [List.takeWhile_append_dropWhile]
        _ = (l.reverse.dropWhile pyIsSpace).reverse ++
              (l.reverse.takeWhile pyIsSpace).reverse := by
              rw [List.reverse_append]
        _ = pyRstrip l ++ (l.reverse.takeWhile pyIsSpace).reverse := rfl
    · intro c hc
      rw [List.mem_reverse] at hc
      exact List.mem_takeWhile_imp hc

/-- The alias loop returns the value of the first alias name whose
lookup is truthy, independent of the record's own field order. -/
theorem findAliasVal_found (d : Doc) (f : String) (v : Value) (post : List String)
    (hlook : lookupField d f = some v) (htruthy : truthy v = true) :
    ∀ pre : List String,
      (∀ g ∈ pre, ∀ w, lookupField d g = some w → truthy w = false) →
      findAliasVal (pre ++ f :: post) d = some v := by
  intro pre
  induction pre with
  | nil =>
    intro _
    simp [findAliasVal, hlook, htruthy]
  | cons g gs ih =>
    intro hpre
    simp only [List.cons_append, findAliasVal]
    cases hw : lookupField d g with
    | none => exact ih fun g2 hg2 => hpre g2 (List.mem_cons_of_mem g hg2)
    | some w =>
      have hwf := hpre g (List.mem_cons_self g gs) w hw
      simp only [hwf, Bool.false_eq_true, if_false]
      exact ih fun g2 hg2 => hpre g2 (List.mem_cons_of_mem g hg2)

/-- C7: for every record with at least one truthy alias field,
extraction returns the normalized stringification of the value of the
first such field in the fixed order text, content, code, message,
body, data, value, snippet — the position `f` of that field is given
by the split of `text_fields`, every alias before it being absent or
falsy (empty) — regardless of the record's own field order; in
particular a record carrying `message` before `code` still yields the
`code` value `"x"`. -/
theorem claim7_alias_priority (d : Doc) (pre post : List String) (f : String)
    (v : Value)
    (hsplit : text_fields = pre ++ f :: post)
    (hlook : lookupField d f = some v)
    (htruthy : truthy v = true)
    (hpre : ∀ g ∈ pre, ∀ w, lookupField d g = some w → truthy w = false) :
    extract_text_content d = some (preserve_code_formatting (pyStr v)) ∧
    extract_text_content [("message", .vstr "y"), ("code", .vstr "x")] = some "x" := by
  constructor
  · have h := findAliasVal_found d f v post hlook htruthy pre hpre
    rw [← hsplit] at h
    simp [extract_text_content, extractValue, h]
  · decide

/-- C7 witness: the split of the alias list at `code`, the lookup and
truthiness facts, and the emptiness of the earlier aliases for the
concrete record `{message: "y", code: "x"}`, together with the
conclusion of the claim. -/
theorem claim7_alias_priority_witness :
    text_fields =
      ["text", "content"] ++ "code" :: ["message", "body", "data", "value", "snippet"] ∧
    lookupField [("message", Value.vstr "y"), ("code", Value.vstr "x")] "code" =
      some (Value.vstr "x") ∧
    truthy (Value.vstr "x") = true ∧
    (∀ g ∈ ["text", "content"], ∀ w,
      lookupField [("message", Value.vstr "y"), ("code", Value.vstr "x")] g = some w →
      truthy w = false) ∧
    (extract_text_content [("message", Value.vstr "y"), ("code", Value.vstr "x")] =
        some (preserve_code_formatting (pyStr (Value.vstr "x"))) ∧
      extract_text_content [("message", Value.vstr "y"), ("code", Value.vstr "x")] =
        some "x") := by
  have hpre : ∀ g ∈ ["text", "content"], ∀ w,
      lookupField [("message", Value.vstr "y"), ("code", Value.vstr "x")] g = some w →
      truthy w = false := by
    intro g hg w hw
    rcases List.mem_cons.1 hg with rfl | hg2
    · exact Option.noConfusion hw
    · rcases List.mem_cons.1 hg2 with rfl | hg3
      · exact Option.noConfusion hw
      · cases hg3
  exact ⟨rfl, rfl, rfl, hpre,
    claim7_alias_priority _ ["text", "content"]
      ["message", "body", "data", "value", "snippet"] "code" (Value.vstr "x")
      rfl rfl rfl hpre⟩

/-- C8 counterexample: with no alias match at the top level, a nested
record earlier in field order preempts the record's own long string —
extraction returns the nested payload `"hi"`, not the first
string-typed value longer than 10 characters that the claim (and the
spec's step-2 phrasing, `firstLongString`) demands. -/
theorem claim8_counterexample :
    extract_text_content
        [("inner", .vdoc [("text", .vstr "hi")]),
         ("outer", .vstr "a long string over ten chars")] = some "hi" ∧
    some "hi" ≠ some (preserve_code_formatting "a long string over ten chars") ∧
    firstLongString
        [("inner", .vdoc [("text", .vstr "hi")]),
         ("outer", .vstr "a long string over ten chars")] =
      some (preserve_code_formatting "a long string over ten chars") := by
  refine ⟨by decide, by decide, by decide⟩

/-- When no nested record yields a truthy payload, the interleaved
fallback scan coincides with the spec's separate step 2. -/
theorem scanFields_eq_firstLong : ∀ d : Doc,
    (∀ k sub, (k, Value.vdoc sub) ∈ d → pyStartsWith k "_" = false →
      ∀ t, extractValue (Value.vdoc sub) = some t → t = "") →
    scanFields d = firstLongString d := by
  intro d
  induction d with
  | nil => intro _; rfl
  | cons kv rest ih =>
    intro h
    have hrest : ∀ k sub, (k, Value.vdoc sub) ∈ rest → pyStartsWith k "_" = false →
        ∀ t, extractValue (Value.vdoc sub) = some t → t = "" :=
      fun k sub hm => h k sub (List.mem_cons_of_mem kv hm)
    obtain ⟨k, v⟩ := kv
    by_cases hk : pyStartsWith k "_" = true
    · simp [scanFields, firstLongString, hk, ih hrest]
    · have hk2 : pyStartsWith k "_" = false := by
        simpa using hk
      cases v with
      | vstr s =>
        by_cases hlen : s.length > 10
        · simp [scanFields, firstLongString, hk2, hlen]
        · simp [scanFields, firstLongString, hk2, hlen, ih hrest]
      | vdoc sub =>
        have hsub := h k sub (List.mem_cons_self _ _) hk2
        cases hx : extractValue (Value.vdoc sub) with
        | none => simp [scanFields, firstLongString, hk2, hx, ih hrest]
        | some t =>
          have ht := hsub t hx
          subst ht
          simp [scanFields, firstLongString, hk2, hx, ih hrest]
      | vint n => simp [scanFields, firstLongString, hk2, ih hrest]
      | vbool b => simp [scanFields, firstLongString, hk2, ih hrest]
      | vnone => simp [scanFields, firstLongString, hk2, ih hrest]

/-- C8 (amended): for every record with no truthy alias field in which
no non-reserved record-valued field recursively yields a truthy
payload, extraction returns the first string-typed value strictly
longer than 10 characters among the non-reserved fields, normalized
(absence if there is none) — and the spec's two concrete examples
hold as stated. -/
theorem claim8_amended_fallback (d : Doc)
    (halias : findAliasVal text_fields d = none)
    (hnested : ∀ k sub, (k, Value.vdoc sub) ∈ d → pyStartsWith k "_" = false →
      ∀ t, extract_text_content sub = some t → t = "") :
    extract_text_content d = firstLongString d ∧
    extract_text_content [("foo", .vstr "this is a sufficiently long string")] =
      some "this is a sufficiently long string" ∧
    extract_text_content [("foo", .vstr "short")] = none := by
  refine ⟨?_, by decide, by decide⟩
  have h2 : ∀ k sub, (k, Value.vdoc sub) ∈ d → pyStartsWith k "_" = false →
      ∀ t, extractValue (Value.vdoc sub) = some t → t = "" :=
    fun k sub hm hk t hx => hnested k sub hm hk t hx
  simp only [extract_text_content, extractValue, halias]
  exact scanFields_eq_firstLong d h2

/-- C8 witness: the record `{foo: "this is a sufficiently long
string"}` has no alias field and no nested record, and the claim's
conclusion holds for it. -/
theorem claim8_amended_fallback_witness :
    findAliasVal text_fields
      [("foo", Value.vstr "this is a sufficiently long string")] = none ∧
    (∀ k sub,
      (k, Value.vdoc sub) ∈
        ([("foo", Value.vstr "this is a sufficiently long string")] : Doc) →
      pyStartsWith k "_" = false →
      ∀ t, extract_text_content sub = some t → t = "") ∧
    (extract_text_content [("foo", Value.vstr "this is a sufficiently long string")] =
        firstLongString [("foo", Value.vstr "this is a sufficiently long string")] ∧
      extract_text_content [("foo", Value.vstr "this is a sufficiently long string")] =
        some "this is a sufficiently long string" ∧
      extract_text_content [("foo", Value.vstr "short")] = none) := by
  have hnested : ∀ k sub,
      (k, Value.vdoc sub) ∈
        ([("foo", Value.vstr "this is a sufficiently long string")] : Doc) →
      pyStartsWith k "_" = false →
      ∀ t, extract_text_content sub = some t → t = "" := by
    intro k sub hm
    rcases List.mem_cons.1 hm with heq | hm2
    · exact absurd (congrArg Prod.snd heq) (by simp)
    · cases hm2
  exact ⟨rfl, hnested, claim8_amended_fallback _ rfl hnested⟩

/-- C9 counterexample: the scan does not complete the long-string pass
before recursing — with a nested record in the first field and a
qualifying long string in the second, extraction returns the nested
payload, not the long string the claim demands. -/
theorem claim9_counterexample :
    extract_text_content
        [("a", .vdoc [("text", .vstr "nested")]),
         ("b", .vstr "this string is long enough")] = some "nested" ∧
    some "nested" ≠ some (preserve_code_formatting "this string is long enough") := by
  refine ⟨by decide, by decide⟩

/-- C9 (amended): the fallback scan is a single interleaved pass in
field order — at each non-reserved field a string longer than 10
characters is returned immediately, and a record-valued field is
recursed into immediately (depth-first, first truthy result wins) —
so a payload found inside a nested record earlier in field order is
returned no matter what follows it. -/
theorem claim9_amended_interleaved (k : String) (sub rest : Doc) (s : String)
    (halias : findAliasVal text_fields ((k, Value.vdoc sub) :: rest) = none)
    (hk : pyStartsWith k "_" = false)
    (hsub : extract_text_content sub = some s) (hs : s ≠ "") :
    extract_text_content ((k, Value.vdoc sub) :: rest) = some s := by
  have hsub2 : extractValue (Value.vdoc sub) = some s := hsub
  simp only [extractValue] at hsub2
  simp [extract_text_content, extractValue, halias, scanFields, hk, hsub2, hs]

/-- C9 witness: the nested record in the first field wins although a
qualifying long string follows in the second. -/
theorem claim9_amended_interleaved_witness :
    findAliasVal text_fields
      [("a", Value.vdoc [("text", Value.vstr "nested")]),
       ("b", Value.vstr "this string is long enough")] = none ∧
    pyStartsWith "a" "_" = false ∧
    extract_text_content [("text", Value.vstr "nested")] = some "nested" ∧
    "nested" ≠ "" ∧
    extract_text_content
      [("a", Value.vdoc [("text", Value.vstr "nested")]),
       ("b", Value.vstr "this string is long enough")] = some "nested" :=
  ⟨rfl, rfl, by decide, by decide,
    claim9_amended_interleaved "a" [("text", Value.vstr "nested")]
      [("b", Value.vstr "this string is long enough")] "nested" rfl rfl
      (by decide) (by decide)⟩

/-! ## Delivery order (base monitor, C3) -/

theorem pairwise_lt_of_le_nodup {l : List Int}
    (h1 : l.Pairwise (fun a b => a ≤ b)) (h2 : l.Nodup) :
    l.Pairwise (fun a b => a < b) :=
  (h1.and h2).imp fun h => lt_of_le_of_ne h.1 h.2

theorem sortDescB_pairwise_ge (l : List BRec) :
    (sortDescB l).Pairwise (fun a b => b.rid ≤ a.rid) := by
  rw [sortDescB, List.pairwise_reverse]
  exact List.sorted_insertionSort _ l

theorem sortDescB_perm (l : List BRec) : (sortDescB l).Perm l :=
  (List.reverse_perm _).trans (List.perm_insertionSort _ l)

theorem sortDescB_mem (l : List BRec) (r : BRec) : r ∈ sortDescB l ↔ r ∈ l :=
  (sortDescB_perm l).mem_iff

theorem admitBRec_cons_seen (r : BRec) (rs : List BRec) (seen : List Int)
    (hr : r.rid ∈ seen) : admitBRec (r :: rs) seen = admitBRec rs seen := by
  simp [admitBRec, hr]

theorem admitBRec_cons_new (r : BRec) (rs : List BRec) (seen : List Int)
    (hr : r.rid ∉ seen) :
    admitBRec (r :: rs) seen =
      (r :: (admitBRec rs (r.rid :: seen)).1, (admitBRec rs (r.rid :: seen)).2) := by
  simp [admitBRec, hr]

theorem admitBRec_sublist : ∀ (l : List BRec) (seen : List Int),
    List.Sublist (admitBRec l seen).1 l := by
  intro l
  induction l with
  | nil => intro seen; simp [admitBRec]
  | cons r rs ih =>
    intro seen
    by_cases hr : r.rid ∈ seen
    · rw [admitBRec_cons_seen r rs seen hr]; exact (ih seen).cons r
    · rw [admitBRec_cons_new r rs seen hr]; exact (ih (r.rid :: seen)).cons₂ r

theorem admitBRec_ids_not_seen : ∀ (l : List BRec) (seen : List Int) (i : Int),
    i ∈ (admitBRec l seen).1.map BRec.rid → i ∉ seen := by
  intro l
  induction l with
  | nil => intro seen i h; simp [admitBRec] at h
  | cons r rs ih =>
    intro seen i h
    by_cases hr : r.rid ∈ seen
    · rw [admitBRec_cons_seen r rs seen hr] at h; exact ih seen i h
    · rw [admitBRec_cons_new r rs seen hr] at h
      simp only [List.map_cons, List.mem_cons] at h
      rcases h with rfl | h2
      · exact hr
      · intro hs
        exact ih (r.rid :: seen) i h2 (List.mem_cons_of_mem _ hs)

theorem admitBRec_ids_nodup : ∀ (l : List BRec) (seen : List Int),
    ((admitBRec l seen).1.map BRec.rid).Nodup := by
  intro l
  induction l with
  | nil => intro seen; simp [admitBRec]
  | cons r rs ih =>
    intro seen
    by_cases hr : r.rid ∈ seen
    · rw [admitBRec_cons_seen r rs seen hr]; exact ih seen
    · rw [admitBRec_cons_new r rs seen hr]
      simp only [List.map_cons]
      refine List.nodup_cons.2 ⟨fun hmem => ?_, ih (r.rid :: seen)⟩
      exact admitBRec_ids_not_seen rs (r.rid :: seen) r.rid hmem
        (List.mem_cons_self _ _)

/-- Whatever query a cycle uses, the ids it hands to processing are
strictly ascending: the store sorts descending by `_id`, the limit
and the dedup filter take sublists, and `reversed(...)` flips the
order. -/
theorem admitted_ids_ascending (l : List BRec) (seen : List Int) :
    ((admitBRec ((sortDescB l).take 100) seen).1.reverse.map BRec.rid).Pairwise
      (fun a b => a < b) := by
  apply pairwise_lt_of_le_nodup
  · rw [List.pairwise_map, List.pairwise_reverse]
    exact List.Pairwise.sublist
      ((admitBRec_sublist ((sortDescB l).take 100) seen).trans
        (List.take_sublist 100 (sortDescB l)))
      (sortDescB_pairwise_ge l)
  · rw [List.map_reverse]
    exact List.nodup_reverse.2 (admitBRec_ids_nodup _ _)

/-- Under the `_id`-ObjectId query branch one cycle keeps the
processed log strictly ascending and bounded by the new check time. -/
theorem pollCycleP_id_invariant (store : List BRec) (now : Int) (st : PState)
    (hq : buildQuery (some st.lastCheck) (hasFieldIn store) = .idGt st.lastCheck)
    (hsorted : st.processedLog.Pairwise (fun a b => a < b))
    (hbound : ∀ i ∈ st.processedLog, i ≤ st.lastCheck)
    (hvis : ∀ r ∈ store, r.rid ≤ now)
    (hnow : st.lastCheck ≤ now) :
    (pollCycleP store now st).processedLog.Pairwise (fun a b => a < b) ∧
    (∀ i ∈ (pollCycleP store now st).processedLog,
      i ≤ (pollCycleP store now st).lastCheck) := by
  have hmem : ∀ i ∈ ((admitBRec ((sortDescB (store.filter
      (matchesQuery (buildQuery (some st.lastCheck) (hasFieldIn store))))).take 100)
        st.seen).1.reverse.map BRec.rid),
      st.lastCheck < i ∧ i ≤ now := by
    intro i hi
    rcases List.mem_map.1 hi with ⟨r, hr, rfl⟩
    have h1 : r ∈ store.filter
        (matchesQuery (buildQuery (some st.lastCheck) (hasFieldIn store))) :=
      (sortDescB_mem _ r).1 ((List.take_sublist _ _).subset
        ((admitBRec_sublist _ _).subset (List.mem_reverse.1 hr)))
    rw [List.mem_filter] at h1
    have h2 := h1.2
    rw [hq] at h2
    simp only [matchesQuery, decide_eq_true_eq] at h2
    exact ⟨h2, hvis r h1.1⟩
  have hlog : (pollCycleP store now st).processedLog =
      st.processedLog ++ ((admitBRec ((sortDescB (store.filter
        (matchesQuery (buildQuery (some st.lastCheck) (hasFieldIn store))))).take 100)
          st.seen).1.reverse.map BRec.rid) := rfl
  have hlc : (pollCycleP store now st).lastCheck = now := rfl
  constructor
  · rw [hlog, List.pairwise_append]
    refine ⟨hsorted, admitted_ids_ascending _ _, ?_⟩
    intro a ha b hb
    exact lt_of_le_of_lt (hbound a ha) (hmem b hb).1
  · intro i hi
    rw [hlog] at hi
    rw [hlc]
    rcases List.mem_append.1 hi with h | h
    · exact le_trans (hbound i h) hnow
    · exact (hmem i h).2

/-- Across a whole run in which no cycle's store carries any of the
four probed timestamp-field names — so every cycle's query is the
`_id` bound — with non-decreasing clock readings and no id beyond its
cycle-end time, the processed log stays strictly ascending. -/
theorem runPollP_id_invariant : ∀ (cs : List (List BRec × Int)) (st : PState),
    st.processedLog.Pairwise (fun a b => a < b) →
    (∀ i ∈ st.processedLog, i ≤ st.lastCheck) →
    (∀ c ∈ cs, ∀ f ∈ ["timestamp", "created_at", "createdAt", "date_created"],
      hasFieldIn c.1 f = false) →
    (∀ c ∈ cs, ∀ r ∈ c.1, r.rid ≤ c.2) →
    List.Chain (fun a b => a ≤ b) st.lastCheck (cs.map Prod.snd) →
    (runPollP cs st).processedLog.Pairwise (fun a b => a < b) := by
  intro cs
  induction cs with
  | nil => intro st h1 _ _ _ _; exact h1
  | cons c rest ih =>
    intro st h1 h2 hnof hvis hchain
    obtain ⟨store, now⟩ := c
    rw [List.map_cons] at hchain
    cases hchain with
    | cons hle hchain2 =>
      have e1 := hnof (store, now) (List.mem_cons_self _ _) "timestamp" (by simp)
      have e2 := hnof (store, now) (List.mem_cons_self _ _) "created_at" (by simp)
      have e3 := hnof (store, now) (List.mem_cons_self _ _) "createdAt" (by simp)
      have e4 := hnof (store, now) (List.mem_cons_self _ _) "date_created" (by simp)
      have hq : buildQuery (some st.lastCheck) (hasFieldIn store) =
          .idGt st.lastCheck := by
        simp [buildQuery, timestamp_fields, buildQueryLoop, e1, e2, e3, e4]
      have hinv := pollCycleP_id_invariant store now st hq h1 h2
        (fun r hr => hvis (store, now) (List.mem_cons_self _ _) r hr) hle
      exact ih (pollCycleP store now st) hinv.1 hinv.2
        (fun c2 hc2 => hnof c2 (List.mem_cons_of_mem _ hc2))
        (fun c2 hc2 => hvis c2 (List.mem_cons_of_mem _ hc2)) hchain2

set_option maxRecDepth 100000 in
set_option maxHeartbeats 2000000 in
/-- C3 counterexample: under the timestamp-field query branch — the
branch the base monitor prefers whenever the collection carries such
a field — cross-cycle delivery order is not ascending by identifier.
102 records match in the first cycle; the descending-`_id` sort plus
`limit(100)` drops the two smallest ids (1 and 2), whose user-supplied
`timestamp` value (100) is ahead of the advancing monitor clock, so
they still satisfy `timestamp > last_check` in the second cycle and
are delivered after the hundred larger ids: both 1 and 3 are
delivered, 1 < 3, yet 3 comes first in the processed log. (The `_id`
scale never meets the clock scale here: a timestamp-field query
compares only the field value with the bound.) -/
theorem claim3_counterexample :
    (let store : List BRec :=
      ⟨1, [("timestamp", 100)]⟩ :: ⟨2, [("timestamp", 100)]⟩ ::
        (List.range' 3 100).map fun n => ⟨(n : Int), [("timestamp", 15)]⟩
     let log := (runPollP [(store, 16), (store, 30)]
        { processedLog := [], seen := [], lastCheck := 0 }).processedLog
     (1 : Int) ∈ log ∧ (3 : Int) ∈ log ∧ (1 : Int) < 3 ∧
       log.indexOf 3 < log.indexOf 1) := by
  decide

/-- C3 (amended): within every single cycle — whatever query branch
the bound-selection loop picks — the admitted records are delivered
in ascending identifier order, and a cycle whose store holds ids
[3,1,2] delivers [1,2,3]; across cycles the ascending guarantee holds
under the `_id`-ObjectId query branch (taken by the base monitor
exactly when no record of the collection carries a timestamp-like
field, and by the enhanced monitor always), given non-decreasing
clock readings and identifiers not exceeding their cycle-end time. -/
theorem claim3_amended_delivery_order (cycles : List (List BRec × Int)) (t0 : Int)
    (store : List BRec) (now : Int) (st : PState)
    (hnof : ∀ c ∈ cycles,
      ∀ f ∈ ["timestamp", "created_at", "createdAt", "date_created"],
      hasFieldIn c.1 f = false)
    (hvis : ∀ c ∈ cycles, ∀ r ∈ c.1, r.rid ≤ c.2)
    (hmono : List.Chain (fun a b => a ≤ b) t0 (cycles.map Prod.snd)) :
    ((pollCycleP store now st).processedLog.drop st.processedLog.length).Pairwise
      (fun a b => a < b) ∧
    (runPollP cycles
      { processedLog := [], seen := [], lastCheck := t0 }).processedLog.Pairwise
        (fun a b => a < b) ∧
    (runPollP [([⟨3, []⟩, ⟨1, []⟩, ⟨2, []⟩], 10)]
      { processedLog := [], seen := [], lastCheck := 0 }).processedLog = [1, 2, 3] := by
  refine ⟨?_, ?_, by decide⟩
  · have hlog : (pollCycleP store now st).processedLog =
        st.processedLog ++ ((admitBRec ((sortDescB (store.filter
          (matchesQuery (buildQuery (some st.lastCheck) (hasFieldIn store))))).take 100)
            st.seen).1.reverse.map BRec.rid) := rfl
    rw [hlog, List.drop_left]
    exact admitted_ids_ascending _ _
  · exact runPollP_id_invariant cycles _ List.Pairwise.nil (by simp) hnof hvis hmono

/-- C3 witness: a two-cycle run over records with no timestamp-like
fields — ids [3,1,2] in the first cycle, [5,4] in the second — meets
the no-field, visibility and clock hypotheses, and the conclusion
follows at a concrete single-cycle instance as well. -/
theorem claim3_amended_delivery_order_witness :
    (∀ c ∈ ([([⟨3, []⟩, ⟨1, []⟩, ⟨2, []⟩], 10), ([⟨5, []⟩, ⟨4, []⟩], 20)] :
        List (List BRec × Int)),
      ∀ f ∈ ["timestamp", "created_at", "createdAt", "date_created"],
      hasFieldIn c.1 f = false) ∧
    (∀ c ∈ ([([⟨3, []⟩, ⟨1, []⟩, ⟨2, []⟩], 10), ([⟨5, []⟩, ⟨4, []⟩], 20)] :
        List (List BRec × Int)), ∀ r ∈ c.1, r.rid ≤ c.2) ∧
    List.Chain (fun a b => a ≤ b) 0
      (([([⟨3, []⟩, ⟨1, []⟩, ⟨2, []⟩], 10), ([⟨5, []⟩, ⟨4, []⟩], 20)] :
        List (List BRec × Int)).map Prod.snd) ∧
    (((pollCycleP [⟨3, []⟩, ⟨1, []⟩, ⟨2, []⟩] 10
        { processedLog := [], seen := [], lastCheck := 0 }).processedLog.drop
          (List.length ([] : List Int))).Pairwise (fun a b => a < b) ∧
     (runPollP [([⟨3, []⟩, ⟨1, []⟩, ⟨2, []⟩], 10), ([⟨5, []⟩, ⟨4, []⟩], 20)]
        { processedLog := [], seen := [], lastCheck := 0 }).processedLog.Pairwise
          (fun a b => a < b) ∧
     (runPollP [([⟨3, []⟩, ⟨1, []⟩, ⟨2, []⟩], 10)]
        { processedLog := [], seen := [], lastCheck := 0 }).processedLog = [1, 2, 3]) :=
  ⟨by decide, by decide,
   List.Chain.cons (by decide) (List.Chain.cons (by decide) List.Chain.nil),
   claim3_amended_delivery_order
     [([⟨3, []⟩, ⟨1, []⟩, ⟨2, []⟩], 10), ([⟨5, []⟩, ⟨4, []⟩], 20)] 0
     [⟨3, []⟩, ⟨1, []⟩, ⟨2, []⟩] 10
     { processedLog := [], seen := [], lastCheck := 0 }
     (by decide) (by decide)
     (List.Chain.cons (by decide) (List.Chain.cons (by decide) List.Chain.nil))⟩

/-! ## Seen-set permanence (enhanced monitor, C10) -/

theorem process_enh_seen_lastCheck (dv : String → Bool) (document : Doc)
    (st : EState) :
    (process_document_enh dv document st).seen = st.seen ∧
    (process_document_enh dv document st).lastCheck = st.lastCheck := by
  cases hx : extract_text_content document with
  | none => simp [process_document_enh, process_document_base, hx]
  | some t =>
    by_cases ht : t = "" <;>
      simp [process_document_enh, process_document_base, hx, ht]

theorem foldl_process_seen_lastCheck (dv : String → Bool) :
    ∀ (ps : List (Int × Doc)) (st : EState),
    (ps.foldl (fun s p => process_document_enh dv p.2 s) st).seen = st.seen ∧
    (ps.foldl (fun s p => process_document_enh dv p.2 s) st).lastCheck =
      st.lastCheck := by
  intro ps
  induction ps with
  | nil => intro st; exact ⟨rfl, rfl⟩
  | cons p rest ih =>
    intro st
    simp only [List.foldl_cons]
    constructor
    · rw [(ih _).1, (process_enh_seen_lastCheck dv p.2 st).1]
    · rw [(ih _).2, (process_enh_seen_lastCheck dv p.2 st).2]

/-- What one enhanced cycle does to the parts of the state that feed
later cycles: the processed ids and the seen-set are fixed by the
fetch and the dedup filter before any processing, and neither
extraction outcomes nor the sink oracle can touch them. -/
theorem pollCycleE_spec (dv : String → Bool) (docs : List (Int × Doc)) (now : Int)
    (st : EState) :
    (pollCycleE dv docs now st).1 =
      (admitDocs (fetchEnhanced docs st.lastCheck) st.seen).1.reverse.map Prod.fst ∧
    (pollCycleE dv docs now st).2.seen =
      (admitDocs (fetchEnhanced docs st.lastCheck) st.seen).2 ∧
    (pollCycleE dv docs now st).2.lastCheck = some now := by
  refine ⟨rfl, ?_, rfl⟩
  exact (foldl_process_seen_lastCheck dv
    (admitDocs (fetchEnhanced docs st.lastCheck) st.seen).1.reverse
    { st with seen := (admitDocs (fetchEnhanced docs st.lastCheck) st.seen).2 }).1

theorem admitDocs_cons_seen (p : Int × Doc) (ps : List (Int × Doc))
    (seen : List Int) (hp : p.1 ∈ seen) :
    admitDocs (p :: ps) seen = admitDocs ps seen := by
  simp [admitDocs, hp]

theorem admitDocs_cons_new (p : Int × Doc) (ps : List (Int × Doc))
    (seen : List Int) (hp : p.1 ∉ seen) :
    admitDocs (p :: ps) seen =
      (p :: (admitDocs ps (p.1 :: seen)).1, (admitDocs ps (p.1 :: seen)).2) := by
  simp [admitDocs, hp]

theorem admitDocs_seen_monotone : ∀ (l : List (Int × Doc)) (seen : List Int)
    (i : Int), i ∈ seen → i ∈ (admitDocs l seen).2 := by
  intro l
  induction l with
  | nil => intro seen i h; exact h
  | cons p ps ih =>
    intro seen i h
    by_cases hp : p.1 ∈ seen
    · rw [admitDocs_cons_seen p ps seen hp]; exact ih seen i h
    · rw [admitDocs_cons_new p ps seen hp]
      exact ih (p.1 :: seen) i (List.mem_cons_of_mem _ h)

theorem admitDocs_adm_not_seen : ∀ (l : List (Int × Doc)) (seen : List Int)
    (p : Int × Doc), p ∈ (admitDocs l seen).1 → p.1 ∉ seen := by
  intro l
  induction l with
  | nil => intro seen p h; cases h
  | cons q ps ih =>
    intro seen p h
    by_cases hq : q.1 ∈ seen
    · rw [admitDocs_cons_seen q ps seen hq] at h; exact ih seen p h
    · rw [admitDocs_cons_new q ps seen hq] at h
      rcases List.mem_cons.1 h with rfl | h2
      · exact hq
      · intro hs
        exact ih (q.1 :: seen) p h2 (List.mem_cons_of_mem _ hs)

theorem admitDocs_adm_in_seen : ∀ (l : List (Int × Doc)) (seen : List Int)
    (p : Int × Doc), p ∈ (admitDocs l seen).1 → p.1 ∈ (admitDocs l seen).2 := by
  intro l
  induction l with
  | nil => intro seen p h; cases h
  | cons q ps ih =>
    intro seen p h
    by_cases hq : q.1 ∈ seen
    · rw [admitDocs_cons_seen q ps seen hq] at h ⊢; exact ih seen p h
    · rw [admitDocs_cons_new q ps seen hq] at h ⊢
      rcases List.mem_cons.1 h with rfl | h2
      · exact admitDocs_seen_monotone ps (p.1 :: seen) p.1
          (List.mem_cons_self _ _)
      · exact ih (q.1 :: seen) p h2

theorem runPollE_seen_monotone : ∀ (cs : List (List (Int × Doc) × Int))
    (dv : String → Bool) (st : EState) (i : Int),
    i ∈ st.seen → i ∈ (runPollE dv cs st).2.seen := by
  intro cs
  induction cs with
  | nil => intro dv st i h; exact h
  | cons c rest ih =>
    intro dv st i h
    simp only [runPollE]
    apply ih
    rw [(pollCycleE_spec dv c.1 c.2 st).2.1]
    exact admitDocs_seen_monotone _ _ i h

theorem runPollE_not_reprocessed : ∀ (cs : List (List (Int × Doc) × Int))
    (dv : String → Bool) (st : EState) (i : Int),
    i ∈ st.seen → i ∉ (runPollE dv cs st).1 := by
  intro cs
  induction cs with
  | nil => intro dv st i _ h; cases h
  | cons c rest ih =>
    intro dv st i h hmem
    simp only [runPollE, List.mem_append] at hmem
    rcases hmem with h1 | h2
    · rw [(pollCycleE_spec dv c.1 c.2 st).1] at h1
      rcases List.mem_map.1 h1 with ⟨p, hp, rfl⟩
      exact admitDocs_adm_not_seen _ _ p (List.mem_reverse.1 hp) h
    · refine ih dv (pollCycleE dv c.1 c.2 st).2 i ?_ h2
      rw [(pollCycleE_spec dv c.1 c.2 st).2.1]
      exact admitDocs_seen_monotone _ _ i h

theorem runPollE_log_in_seen : ∀ (cs : List (List (Int × Doc) × Int))
    (dv : String → Bool) (st : EState) (j : Int),
    j ∈ (runPollE dv cs st).1 → j ∈ (runPollE dv cs st).2.seen := by
  intro cs
  induction cs with
  | nil => intro dv st j h; cases h
  | cons c rest ih =>
    intro dv st j h
    simp only [runPollE, List.mem_append] at h
    simp only [runPollE]
    rcases h with h1 | h2
    · apply runPollE_seen_monotone
      rw [(pollCycleE_spec dv c.1 c.2 st).1] at h1
      rcases List.mem_map.1 h1 with ⟨p, hp, rfl⟩
      rw [(pollCycleE_spec dv c.1 c.2 st).2.1]
      exact admitDocs_adm_in_seen _ _ p (List.mem_reverse.1 hp)
    · exact ih dv _ j h2

theorem runPollE_oracle_indep : ∀ (cs : List (List (Int × Doc) × Int))
    (dv dv' : String → Bool) (st st' : EState),
    st.seen = st'.seen → st.lastCheck = st'.lastCheck →
    (runPollE dv cs st).1 = (runPollE dv' cs st').1 ∧
    (runPollE dv cs st).2.seen = (runPollE dv' cs st').2.seen ∧
    (runPollE dv cs st).2.lastCheck = (runPollE dv' cs st').2.lastCheck := by
  intro cs
  induction cs with
  | nil => intro dv dv' st st' h1 h2; exact ⟨rfl, h1, h2⟩
  | cons c rest ih =>
    intro dv dv' st st' h1 h2
    have e1 : (pollCycleE dv c.1 c.2 st).1 = (pollCycleE dv' c.1 c.2 st').1 := by
      rw [(pollCycleE_spec dv c.1 c.2 st).1, (pollCycleE_spec dv' c.1 c.2 st').1,
        h1, h2]
    have e2 : (pollCycleE dv c.1 c.2 st).2.seen =
        (pollCycleE dv' c.1 c.2 st').2.seen := by
      rw [(pollCycleE_spec dv c.1 c.2 st).2.1, (pollCycleE_spec dv' c.1 c.2 st').2.1,
        h1, h2]
    have e3 : (pollCycleE dv c.1 c.2 st).2.lastCheck =
        (pollCycleE dv' c.1 c.2 st').2.lastCheck := by
      rw [(pollCycleE_spec dv c.1 c.2 st).2.2, (pollCycleE_spec dv' c.1 c.2 st').2.2]
    have hrec := ih dv dv' _ _ e2 e3
    simp only [runPollE]
    exact ⟨by rw [e1, hrec.1], hrec.2.1, hrec.2.2⟩

/-- C10: an admitted identifier enters the seen-set during the fetch,
before extraction or delivery is attempted, and stays there for the
rest of the process regardless of per-record outcome. Concretely: an
id already seen is never processed again in any later cycle and is
still in the final seen-set; the sequence of processed ids is
identical under any two delivery oracles (per-record outcomes cannot
influence admission); and every processed id ends up in the final
seen-set — including those whose extraction found nothing or whose
delivery failed. -/
theorem claim10_seen_set_permanent (dv dv' : String → Bool)
    (cycles : List (List (Int × Doc) × Int)) (st : EState) (i : Int)
    (h : i ∈ st.seen) :
    i ∉ (runPollE dv cycles st).1 ∧
    i ∈ (runPollE dv cycles st).2.seen ∧
    (runPollE dv cycles st).1 = (runPollE dv' cycles st).1 ∧
    (∀ j ∈ (runPollE dv cycles st).1, j ∈ (runPollE dv cycles st).2.seen) :=
  ⟨runPollE_not_reprocessed cycles dv st i h,
   runPollE_seen_monotone cycles dv st i h,
   (runPollE_oracle_indep cycles dv dv' st st rfl rfl).1,
   fun j hj => runPollE_log_in_seen cycles dv st j hj⟩

/-- C10 witness: id 5 is already seen; a cycle offering documents 5
and 6 processes only 6, keeps 5 in the seen-set, behaves identically
under an always-failing and an always-succeeding sink, and records 6
in the seen-set. -/
theorem claim10_seen_set_permanent_witness :
    (5 : Int) ∈ (({ initE with seen := [5] } : EState)).seen ∧
    ((5 : Int) ∉ (runPollE (fun _ => false)
        [([(5, [("code", Value.vstr "x")]), (6, [("text", Value.vstr "hello")])], 10)]
        { initE with seen := [5] }).1 ∧
     (5 : Int) ∈ (runPollE (fun _ => false)
        [([(5, [("code", Value.vstr "x")]), (6, [("text", Value.vstr "hello")])], 10)]
        { initE with seen := [5] }).2.seen ∧
     (runPollE (fun _ => false)
        [([(5, [("code", Value.vstr "x")]), (6, [("text", Value.vstr "hello")])], 10)]
        { initE with seen := [5] }).1 =
       (runPollE (fun _ => true)
        [([(5, [("code", Value.vstr "x")]), (6, [("text", Value.vstr "hello")])], 10)]
        { initE with seen := [5] }).1 ∧
     (∀ j ∈ (runPollE (fun _ => false)
        [([(5, [("code", Value.vstr "x")]), (6, [("text", Value.vstr "hello")])], 10)]
        { initE with seen := [5] }).1,
       j ∈ (runPollE (fun _ => false)
        [([(5, [("code", Value.vstr "x")]), (6, [("text", Value.vstr "hello")])], 10)]
        { initE with seen := [5] }).2.seen)) :=
  ⟨by decide, claim10_seen_set_permanent (fun _ => false) (fun _ => true)
    [([(5, [("code", Value.vstr "x")]), (6, [("text", Value.vstr "hello")])], 10)]
    { initE with seen := [5] } 5 (by decide)⟩

end MongoPoster
